import Mathlib

/-!
Verification of the striped concurrent hash map from
`src/include/concurrent_hashmap.hpp`.

The C++ class `ConcurrentHashMap<Key, Value, NumBuckets>` keeps a fixed
array of `NumBuckets` buckets; each bucket holds a chained list
`list<pair<Key,Value>> items` guarded by a reader-writer lock.  The
sequential state is embedded shallowly: a state is the list of bucket
chains (its length plays the role of the template parameter
`NumBuckets`, which every operation preserves), `std::hash<Key>` is an
arbitrary parameter `hash : Key → Nat`, and each method becomes a pure
Lean function on the state.  Locks have no sequential content and are
dropped; methods that mutate return the new state, `const` methods are
additionally given state-passing variants returning the (unchanged)
state to express their frame conditions.

One remark on fidelity: the source's `put` contains two lexical slips,
`cont Key& key` for `const Key& key` in `getBucketIndex` and
`bucket.item.emplace_back(key,value)` for `bucket.items.emplace_back`
in the append branch, so the translation unit does not compile as
written.  The specification (design notes, section 9) flags the
insertion path as a never-exercised slip whose intended behavior is
"append a new entry when no existing key matches during upsert"; the
definitions below follow that intent, which the fixed member name
`items` forces anyway.
-/

namespace CHM

variable {Key Value : Type} [DecidableEq Key]

/-- State of a `ConcurrentHashMap<Key, Value, NumBuckets>`: the field
`buckets_` mirrors `array<Bucket,NumBuckets> buckets_`, each element
being one bucket's `items` chain.  `NumBuckets` is `buckets_.length`. -/
structure ConcurrentHashMap (Key Value : Type) where
  buckets_ : List (List (Key × Value))

/-- The default-constructed map (`ConcurrentHashMap() = default`): every
one of the `n` buckets starts with an empty chain. -/
def emptyMap (Key Value : Type) (n : Nat) : ConcurrentHashMap Key Value :=
  ⟨List.replicate n []⟩

/-- Embeds `getBucketIndex`, which returns the hash of the key modulo
`NumBuckets`.  (The source spells the parameter `cont Key& key`, a slip
for `const`.) -/
def getBucketIndex (hash : Key → Nat) (m : ConcurrentHashMap Key Value)
    (key : Key) : Nat :=
  hash key % m.buckets_.length

/-- The chain of the bucket `getBucket(key)` resolves to. -/
def bucketOf (hash : Key → Nat) (m : ConcurrentHashMap Key Value)
    (key : Key) : List (Key × Value) :=
  m.buckets_.getD (getBucketIndex hash m key) []

/-- The scan loop of `get`: walk `bucket.items`, return the first value
stored under a matching key, else `nullopt`. -/
def scanBucket (key : Key) : List (Key × Value) → Option Value
  | [] => none
  | (k, v) :: rest => if k = key then some v else scanBucket key rest

/-- Embeds `get(key)`: shared-lock the target bucket, scan its chain. -/
def get (hash : Key → Nat) (m : ConcurrentHashMap Key Value)
    (key : Key) : Option Value :=
  scanBucket key (bucketOf hash m key)

/-- The loop of `put` on one chain: overwrite the value in place at the
first matching key, otherwise append `(key, value)` at the back (the
branch written `bucket.item.emplace_back(key,value)` in the source; see
the header comment on the `item`/`items` slip). -/
def upsertBucket (key : Key) (value : Value) :
    List (Key × Value) → List (Key × Value)
  | [] => [(key, value)]
  | (k, v) :: rest =>
    if k = key then (k, value) :: rest
    else (k, v) :: upsertBucket key value rest

/-- Embeds `put(key, value)`: exclusive-lock the target bucket and
upsert into its chain. -/
def put (hash : Key → Nat) (m : ConcurrentHashMap Key Value)
    (key : Key) (value : Value) : ConcurrentHashMap Key Value :=
  ⟨m.buckets_.set (getBucketIndex hash m key)
    (upsertBucket key value (bucketOf hash m key))⟩

/-- The body of `remove` on one chain: `find_if` the first entry with a
matching key and `erase` it, reporting whether one was found. -/
def eraseBucket (key : Key) :
    List (Key × Value) → Bool × List (Key × Value)
  | [] => (false, [])
  | (k, v) :: rest =>
    if k = key then (true, rest)
    else
      let r := eraseBucket key rest
      (r.1, (k, v) :: r.2)

/-- Embeds `remove(key)`: exclusive-lock the target bucket, erase the
first matching entry, return whether a removal occurred together with
the new state. -/
def remove (hash : Key → Nat) (m : ConcurrentHashMap Key Value)
    (key : Key) : Bool × ConcurrentHashMap Key Value :=
  let r := eraseBucket key (bucketOf hash m key)
  (r.1, ⟨m.buckets_.set (getBucketIndex hash m key) r.2⟩)

/-- Embeds `contains(key)`: literally `get(key).has_value()`. -/
def containsKey (hash : Key → Nat) (m : ConcurrentHashMap Key Value)
    (key : Key) : Bool :=
  (get hash m key).isSome

/-- Embeds `size()`: the loop `total += bucket.items.size()` over all
buckets, starting from `total = 0`. -/
def size (m : ConcurrentHashMap Key Value) : Nat :=
  m.buckets_.foldl (fun total b => total + b.length) 0

/-- Embeds `clear()`: `bucket.items.clear()` on every bucket in turn. -/
def clear (m : ConcurrentHashMap Key Value) : ConcurrentHashMap Key Value :=
  ⟨m.buckets_.map (fun _ => [])⟩

/-- State-passing form of the `const` method `get`: it reads the target
bucket under a shared lock and returns a copy of the found value next to
the (untouched) map state. -/
def getS (hash : Key → Nat) (m : ConcurrentHashMap Key Value)
    (key : Key) : Option Value × ConcurrentHashMap Key Value :=
  (scanBucket key (bucketOf hash m key), m)

/-- State-passing form of `contains`, which calls `get` and tests the
optional. -/
def containsS (hash : Key → Nat) (m : ConcurrentHashMap Key Value)
    (key : Key) : Bool × ConcurrentHashMap Key Value :=
  let r := getS hash m key
  (r.1.isSome, r.2)

/-- State-passing form of the `const` method `size`: the summing loop
threads the state through unmodified. -/
def sizeS (m : ConcurrentHashMap Key Value) :
    Nat × ConcurrentHashMap Key Value :=
  (m.buckets_.foldl (fun total b => total + b.length) 0, m)

/-- Number of entries stored under `key`, summed over every bucket of
the whole structure. -/
def countKey (m : ConcurrentHashMap Key Value) (key : Key) : Nat :=
  (m.buckets_.map (fun b => (b.filter (fun p => p.1 = key)).length)).sum

/-- Structural invariant of a bucket array: every chain holds pairwise
distinct keys, and every entry sits in the bucket its key hashes to. -/
def WF (hash : Key → Nat) (m : ConcurrentHashMap Key Value) : Prop :=
  ∀ i, i < m.buckets_.length →
    ((m.buckets_.getD i []).map Prod.fst).Nodup ∧
    ∀ p ∈ m.buckets_.getD i [], hash p.1 % m.buckets_.length = i

instance WF.instDecidable (hash : Key → Nat)
    (m : ConcurrentHashMap Key Value) : Decidable (WF hash m) := by
  unfold WF
  infer_instance

/-- The map states reachable from a freshly constructed map by the
mutating public operations. -/
inductive Reachable (hash : Key → Nat) :
    ConcurrentHashMap Key Value → Prop
  | emptyMap (n : Nat) : Reachable hash (emptyMap Key Value n)
  | put {m : ConcurrentHashMap Key Value} (key : Key) (value : Value) :
      Reachable hash m → Reachable hash (put hash m key value)
  | remove {m : ConcurrentHashMap Key Value} (key : Key) :
      Reachable hash m → Reachable hash (CHM.remove hash m key).2
  | clear {m : ConcurrentHashMap Key Value} :
      Reachable hash m → Reachable hash (CHM.clear m)

/-- Inserting a batch of entries by repeated `put`, left to right. -/
def insertAll (hash : Key → Nat) (m : ConcurrentHashMap Key Value)
    (ps : List (Key × Value)) : ConcurrentHashMap Key Value :=
  ps.foldl (fun m p => put hash m p.1 p.2) m

/-- A script of mutating public operations. -/
inductive Op (Key Value : Type) where
  | putOp (key : Key) (value : Value)
  | removeOp (key : Key)
  | clearOp

/-- Run one operation of a script against the map state. -/
def applyOp (hash : Key → Nat) (m : ConcurrentHashMap Key Value) :
    Op Key Value → ConcurrentHashMap Key Value
  | Op.putOp key value => put hash m key value
  | Op.removeOp key => (remove hash m key).2
  | Op.clearOp => clear m

/-- Run a whole script left to right. -/
def runOps (hash : Key → Nat) (m : ConcurrentHashMap Key Value)
    (ops : List (Op Key Value)) : ConcurrentHashMap Key Value :=
  ops.foldl (applyOp hash) m

/-- Whether an operation inserts under the given key. -/
def putsKey (key : Key) : Op Key Value → Bool
  | Op.putOp k _ => decide (k = key)
  | Op.removeOp _ => false
  | Op.clearOp => false

section ListLemmas

variable {α : Type}

theorem getD_set_self (l : List α) (i : Nat) (x d : α) (h : i < l.length) :
    (l.set i x).getD i d = x := by
  induction l generalizing i with
  | nil => simp at h
  | cons a t ih =>
    cases i with
    | zero => rfl
    | succ n =>
      simp only [List.set, List.getD, List.getElem?_cons_succ]
      exact ih n (by simpa using h)

theorem getD_set_ne (l : List α) {i j : Nat} (x : α) (d : α) (h : i ≠ j) :
    (l.set i x).getD j d = l.getD j d := by
  induction l generalizing i j with
  | nil => rfl
  | cons a t ih =>
    cases i with
    | zero =>
      cases j with
      | zero => exact absurd rfl h
      | succ n => rfl
    | succ n =>
      cases j with
      | zero => rfl
      | succ p =>
        simp only [List.set, List.getD, List.getElem?_cons_succ]
        exact ih (fun hc => h (by simp [hc]))

theorem set_getD_self (l : List α) (i : Nat) (d : α) :
    l.set i (l.getD i d) = l := by
  induction l generalizing i with
  | nil => rfl
  | cons a t ih =>
    cases i with
    | zero => rfl
    | succ n =>
      simp only [List.set, List.getD, List.getElem?_cons_succ]
      exact congrArg (a :: ·) (ih n)

theorem getD_of_ge (l : List α) {i : Nat} (d : α) (h : l.length ≤ i) :
    l.getD i d = d := by
  induction l generalizing i with
  | nil => rfl
  | cons a t ih =>
    cases i with
    | zero => simp at h
    | succ n =>
      simp only [List.getD, List.getElem?_cons_succ]
      exact ih (by simpa using h)

theorem getD_replicate_nil {β : Type} (n i : Nat) :
    ((List.replicate n ([] : List β)).getD i []) = [] := by
  induction n generalizing i with
  | zero => rfl
  | succ k ih =>
    cases i with
    | zero => rfl
    | succ j =>
      simp only [List.replicate, List.getD, List.getElem?_cons_succ]
      exact ih j

theorem getD_map_const_nil {β γ : Type} (l : List β) (i : Nat) :
    ((l.map (fun _ => ([] : List γ))).getD i []) = [] := by
  induction l generalizing i with
  | nil => rfl
  | cons a t ih =>
    cases i with
    | zero => rfl
    | succ j =>
      simp only [List.map, List.getD, List.getElem?_cons_succ]
      exact ih j

theorem foldl_add_length {β : Type} (l : List (List β)) (n : Nat) :
    l.foldl (fun total b => total + b.length) n
      = n + (l.map List.length).sum := by
  induction l generalizing n with
  | nil => simp
  | cons a t ih => simp [List.foldl, ih, Nat.add_assoc]

theorem sum_map_length_set {β : Type} (l : List (List β)) (i : Nat)
    (x : List β) (h : i < l.length) :
    ((l.set i x).map List.length).sum + (l.getD i []).length
      = (l.map List.length).sum + x.length := by
  induction l generalizing i with
  | nil => simp at h
  | cons a t ih =>
    cases i with
    | zero => simp [List.getD, Nat.add_comm, Nat.add_left_comm]
    | succ n =>
      simp only [List.set, List.map, List.sum_cons, List.getD,
        List.getElem?_cons_succ, List.get?_cons_succ]
      have := ih n (by simpa using h)
      simp only [List.getD] at this
      omega

theorem option_eq_none_of_isSome_false {α : Type} {o : Option α}
    (h : o.isSome = false) : o = none := by
  cases o with
  | none => rfl
  | some a => simp at h

end ListLemmas

section BucketLemmas

variable {key k' : Key} {value v : Value} {l : List (Key × Value)}

theorem scanBucket_eq_none_iff :
    scanBucket key l = none ↔ ∀ p ∈ l, p.1 ≠ key := by
  induction l with
  | nil => simp [scanBucket]
  | cons a t ih =>
    by_cases h : a.1 = key
    · simp [scanBucket, h]
    · simp only [scanBucket, h, if_neg, List.mem_cons]
      constructor
      · intro hs p hp
        rcases hp with hp | hp
        · exact hp ▸ h
        · exact (ih.mp hs) p hp
      · intro hall
        exact ih.mpr (fun p hp => hall p (Or.inr hp))

theorem scanBucket_isSome_iff :
    (scanBucket key l).isSome = true ↔ key ∈ l.map Prod.fst := by
  induction l with
  | nil => simp [scanBucket]
  | cons a t ih =>
    by_cases h : a.1 = key
    · simp [scanBucket, h]
    · simp [scanBucket, h, ih, Ne.symm h]

theorem scanBucket_upsertBucket_self :
    scanBucket key (upsertBucket key value l) = some value := by
  induction l with
  | nil => simp [upsertBucket, scanBucket]
  | cons a t ih =>
    by_cases h : a.1 = key
    · simp [upsertBucket, scanBucket, h]
    · simp [upsertBucket, scanBucket, h, ih]

theorem scanBucket_upsertBucket_ne (h : k' ≠ key) :
    scanBucket k' (upsertBucket key value l) = scanBucket k' l := by
  induction l with
  | nil =>
    simp only [upsertBucket, scanBucket]
    rw [if_neg (fun hc : key = k' => h hc.symm)]
  | cons a t ih =>
    by_cases ha : a.1 = key
    · simp only [upsertBucket, if_pos ha]
      by_cases hk : a.1 = k'
      · exact absurd (hk ▸ ha) (fun hc => h hc)
      · simp [scanBucket, hk]
    · simp only [upsertBucket, if_neg ha, scanBucket]
      by_cases hk : a.1 = k'
      · simp [hk]
      · simp [hk, ih]

theorem keys_upsertBucket :
    (upsertBucket key value l).map Prod.fst
      = if key ∈ l.map Prod.fst then l.map Prod.fst
        else l.map Prod.fst ++ [key] := by
  induction l with
  | nil => simp [upsertBucket]
  | cons a t ih =>
    by_cases h : a.1 = key
    · simp [upsertBucket, h]
    · simp only [upsertBucket, if_neg h, List.map, List.mem_cons, ih]
      by_cases hm : key ∈ t.map Prod.fst
      · simp [hm, Ne.symm h]
      · simp [hm, Ne.symm h]

theorem fst_mem_upsertBucket {p : Key × Value}
    (hp : p ∈ upsertBucket key value l) : p.1 = key ∨ p ∈ l := by
  induction l with
  | nil => simp [upsertBucket] at hp; exact Or.inl (by simp [hp])
  | cons a t ih =>
    by_cases h : a.1 = key
    · simp only [upsertBucket, if_pos h, List.mem_cons] at hp
      rcases hp with hp | hp
      · exact Or.inl (by simp [hp, h])
      · exact Or.inr (List.mem_cons_of_mem a hp)
    · simp only [upsertBucket, if_neg h, List.mem_cons] at hp
      rcases hp with hp | hp
      · exact Or.inr (by simp [hp])
      · rcases ih hp with hk | hm
        · exact Or.inl hk
        · exact Or.inr (List.mem_cons_of_mem a hm)

theorem nodup_keys_upsertBucket
    (h : (l.map Prod.fst).Nodup) :
    ((upsertBucket key value l).map Prod.fst).Nodup := by
  rw [keys_upsertBucket]
  by_cases hm : key ∈ l.map Prod.fst
  · simpa [hm] using h
  · simp only [hm, if_neg, ite_false]
    exact List.Nodup.append h (List.nodup_singleton key)
      (by
        intro a ha hb
        simp only [List.mem_singleton] at hb
        exact hm (hb ▸ ha))

theorem eraseBucket_fst :
    (eraseBucket key l).1 = (scanBucket key l).isSome := by
  induction l with
  | nil => rfl
  | cons a t ih =>
    by_cases h : a.1 = key
    · simp [eraseBucket, scanBucket, h]
    · simp [eraseBucket, scanBucket, h, ih]

theorem eraseBucket_of_absent (h : scanBucket key l = none) :
    eraseBucket key l = (false, l) := by
  induction l with
  | nil => rfl
  | cons a t ih =>
    by_cases ha : a.1 = key
    · simp [scanBucket, ha] at h
    · simp only [scanBucket, if_neg ha] at h
      simp [eraseBucket, ha, ih h]

theorem eraseBucket_sublist : (eraseBucket key l).2.Sublist l := by
  induction l with
  | nil => simp [eraseBucket]
  | cons a t ih =>
    by_cases h : a.1 = key
    · simp only [eraseBucket, if_pos h]
      exact List.sublist_cons_self a t
    · simp only [eraseBucket, if_neg h]
      exact List.Sublist.cons₂ a ih

theorem scanBucket_eraseBucket_self
    (h : (l.map Prod.fst).Nodup) :
    scanBucket key (eraseBucket key l).2 = none := by
  induction l with
  | nil => rfl
  | cons a t ih =>
    simp only [List.map, List.nodup_cons] at h
    by_cases ha : a.1 = key
    · simp only [eraseBucket, if_pos ha]
      exact scanBucket_eq_none_iff.mpr
        (fun p hp hc => h.1 (by rw [ha, ← hc]; exact List.mem_map_of_mem Prod.fst hp))
    · simp only [eraseBucket, if_neg ha, scanBucket]
      simp [ha, ih h.2]

theorem scanBucket_none_of_sublist {l' : List (Key × Value)}
    (hs : l'.Sublist l) (h : scanBucket key l = none) :
    scanBucket key l' = none :=
  scanBucket_eq_none_iff.mpr
    (fun p hp => scanBucket_eq_none_iff.mp h p (hs.subset hp))

theorem filter_length_le_one
    (h : (l.map Prod.fst).Nodup) :
    (l.filter (fun p => p.1 = key)).length ≤ 1 := by
  induction l with
  | nil => simp
  | cons a t ih =>
    simp only [List.map, List.nodup_cons] at h
    by_cases ha : a.1 = key
    · have ht : t.filter (fun p => p.1 = key) = [] :=
        List.filter_eq_nil_iff.mpr
          (fun p hp => by
            simp only [decide_eq_true_eq]
            intro hc
            exact h.1 (by rw [ha, ← hc]; exact List.mem_map_of_mem Prod.fst hp))
      simp [List.filter, ha, ht]
    · simpa [List.filter, ha] using ih h.2

end BucketLemmas

section MapLemmas

variable {hash : Key → Nat} {m : ConcurrentHashMap Key Value}
variable {key k' : Key} {value : Value}

theorem length_put :
    (put hash m key value).buckets_.length = m.buckets_.length := by
  simp [put]

theorem length_remove :
    (remove hash m key).2.buckets_.length = m.buckets_.length := by
  simp [remove]

theorem length_clear :
    (clear m).buckets_.length = m.buckets_.length := by
  simp [clear]

theorem length_emptyMap (n : Nat) :
    (emptyMap Key Value n).buckets_.length = n := by
  simp [emptyMap]

theorem getBucketIndex_put :
    getBucketIndex hash (put hash m key value) k'
      = getBucketIndex hash m k' := by
  simp [getBucketIndex, length_put]

theorem getBucketIndex_remove :
    getBucketIndex hash (remove hash m key).2 k'
      = getBucketIndex hash m k' := by
  simp [getBucketIndex, length_remove]

theorem getBucketIndex_lt (h : 0 < m.buckets_.length) :
    getBucketIndex hash m key < m.buckets_.length :=
  Nat.mod_lt _ h

theorem get_of_nil (h : m.buckets_ = []) : get hash m key = none := by
  simp [get, bucketOf, h, List.getD, scanBucket]

theorem put_of_nil (h : m.buckets_ = []) : put hash m key value = m := by
  cases m with
  | mk bs => cases h; rfl

theorem remove_snd_of_nil (h : m.buckets_ = []) :
    (remove hash m key).2 = m := by
  cases m with
  | mk bs => cases h; rfl

theorem bucketOf_put_self (h : 0 < m.buckets_.length) :
    bucketOf hash (put hash m key value) key
      = upsertBucket key value (bucketOf hash m key) := by
  show (put hash m key value).buckets_.getD
    (getBucketIndex hash (put hash m key value) key) [] = _
  rw [getBucketIndex_put]
  exact getD_set_self _ _ _ _ (getBucketIndex_lt h)

theorem get_put_self (h : 0 < m.buckets_.length) :
    get hash (put hash m key value) key = some value := by
  show scanBucket key (bucketOf hash (put hash m key value) key) = _
  rw [bucketOf_put_self h]
  exact scanBucket_upsertBucket_self

theorem get_put_ne (hne : k' ≠ key) :
    get hash (put hash m key value) k' = get hash m k' := by
  by_cases hb : m.buckets_ = []
  · rw [put_of_nil hb]
  · have h : 0 < m.buckets_.length := List.length_pos.mpr hb
    show scanBucket k' ((put hash m key value).buckets_.getD
      (getBucketIndex hash (put hash m key value) k') []) = _
    rw [getBucketIndex_put]
    by_cases hi : getBucketIndex hash m k' = getBucketIndex hash m key
    · show scanBucket k' ((m.buckets_.set (getBucketIndex hash m key)
        (upsertBucket key value (bucketOf hash m key))).getD
        (getBucketIndex hash m k') []) = _
      rw [hi, getD_set_self _ _ _ _ (getBucketIndex_lt h),
        scanBucket_upsertBucket_ne hne]
      show scanBucket k' (m.buckets_.getD (getBucketIndex hash m key) [])
        = get hash m k'
      rw [← hi]
      rfl
    · show scanBucket k' ((m.buckets_.set (getBucketIndex hash m key)
        (upsertBucket key value (bucketOf hash m key))).getD
        (getBucketIndex hash m k') []) = _
      rw [getD_set_ne _ _ _ (fun hc => hi hc.symm)]
      rfl

theorem remove_fst_eq :
    (remove hash m key).1 = containsKey hash m key := by
  simp [remove, containsKey, get, eraseBucket_fst]

theorem remove_of_absent (h : containsKey hash m key = false) :
    (remove hash m key).2 = m := by
  have hscan : scanBucket key (bucketOf hash m key) = none :=
    option_eq_none_of_isSome_false h
  cases m with
  | mk bs =>
    show ConcurrentHashMap.mk (bs.set _ (eraseBucket key _).2) = _
    rw [eraseBucket_of_absent hscan]
    show ConcurrentHashMap.mk (bs.set _ (bs.getD _ [])) = _
    rw [set_getD_self]

theorem get_remove_preserve_none (h : get hash m k' = none) :
    get hash (remove hash m key).2 k' = none := by
  by_cases hb : m.buckets_ = []
  · rw [remove_snd_of_nil hb]; exact h
  · have hlen : 0 < m.buckets_.length := List.length_pos.mpr hb
    show scanBucket k' ((remove hash m key).2.buckets_.getD
      (getBucketIndex hash (remove hash m key).2 k') []) = _
    rw [getBucketIndex_remove]
    by_cases hi : getBucketIndex hash m k' = getBucketIndex hash m key
    · rw [hi]
      show scanBucket k' ((m.buckets_.set (getBucketIndex hash m key)
        (eraseBucket key (bucketOf hash m key)).2).getD
        (getBucketIndex hash m key) []) = _
      rw [getD_set_self _ _ _ _ (getBucketIndex_lt hlen)]
      refine scanBucket_none_of_sublist eraseBucket_sublist ?_
      show scanBucket k' (bucketOf hash m key) = none
      rw [bucketOf, ← hi]
      exact h
    · show scanBucket k' ((m.buckets_.set (getBucketIndex hash m key)
        (eraseBucket key (bucketOf hash m key)).2).getD
        (getBucketIndex hash m k') []) = _
      rw [getD_set_ne _ _ _ (fun hc => hi hc.symm)]
      exact h

theorem get_remove_self (hwf : WF hash m)
    (hc : containsKey hash m key = true) :
    get hash (remove hash m key).2 key = none := by
  have hscan : (scanBucket key (bucketOf hash m key)).isSome = true := hc
  have hbne : bucketOf hash m key ≠ [] := by
    intro hnil
    rw [hnil] at hscan
    simp [scanBucket] at hscan
  have hidx : getBucketIndex hash m key < m.buckets_.length := by
    by_contra hge
    exact hbne (getD_of_ge _ _ (Nat.le_of_not_lt hge))
  have hnd : ((bucketOf hash m key).map Prod.fst).Nodup :=
    (hwf _ hidx).1
  show scanBucket key ((remove hash m key).2.buckets_.getD
    (getBucketIndex hash (remove hash m key).2 key) []) = _
  rw [getBucketIndex_remove]
  show scanBucket key ((m.buckets_.set (getBucketIndex hash m key)
    (eraseBucket key (bucketOf hash m key)).2).getD
    (getBucketIndex hash m key) []) = _
  rw [getD_set_self _ _ _ _ hidx]
  exact scanBucket_eraseBucket_self hnd

theorem size_eq_sum :
    size m = (m.buckets_.map List.length).sum := by
  simpa using foldl_add_length m.buckets_ 0

theorem length_upsertBucket_absent {l : List (Key × Value)}
    (h : scanBucket key l = none) :
    (upsertBucket key value l).length = l.length + 1 := by
  have hm : key ∉ l.map Prod.fst := by
    intro hmem
    rcases List.mem_map.mp hmem with ⟨p, hp, hfst⟩
    exact scanBucket_eq_none_iff.mp h p hp hfst
  have hkeys : (upsertBucket key value l).map Prod.fst
      = if key ∈ l.map Prod.fst then l.map Prod.fst
        else l.map Prod.fst ++ [key] := keys_upsertBucket
  rw [if_neg hm] at hkeys
  have := congrArg List.length hkeys
  simpa using this

theorem size_put_absent (h0 : 0 < m.buckets_.length)
    (h : containsKey hash m key = false) :
    size (put hash m key value) = size m + 1 := by
  have hscan : scanBucket key (bucketOf hash m key) = none :=
    option_eq_none_of_isSome_false h
  have hset := sum_map_length_set m.buckets_ (getBucketIndex hash m key)
    (upsertBucket key value (bucketOf hash m key)) (getBucketIndex_lt h0)
  rw [size_eq_sum, size_eq_sum]
  show ((m.buckets_.set (getBucketIndex hash m key)
    (upsertBucket key value (bucketOf hash m key))).map List.length).sum
      = _
  rw [length_upsertBucket_absent hscan] at hset
  have hb : (m.buckets_.getD (getBucketIndex hash m key) []).length
      = (bucketOf hash m key).length := rfl
  omega

theorem get_clear : get hash (clear m) key = none := by
  show scanBucket key ((clear m).buckets_.getD _ []) = _
  show scanBucket key ((m.buckets_.map (fun _ => [])).getD _ []) = _
  rw [getD_map_const_nil]
  rfl

theorem size_clear : size (clear m) = 0 := by
  rw [size_eq_sum]
  refine List.sum_eq_zero ?_
  intro x hx
  rcases List.mem_map.mp hx with ⟨b, hb, hlen⟩
  rcases List.mem_map.mp hb with ⟨c, _, hc⟩
  rw [← hlen, ← hc]
  rfl

theorem get_emptyMap (n : Nat) :
    get hash (emptyMap Key Value n) key = none := by
  show scanBucket key ((List.replicate n []).getD _ []) = _
  rw [getD_replicate_nil]
  rfl

end MapLemmas

section InvariantLemmas

variable {hash : Key → Nat} {m : ConcurrentHashMap Key Value}
variable {key : Key} {value : Value}

theorem WF_emptyMap (n : Nat) : WF hash (emptyMap Key Value n) := by
  intro i hi
  have h : (emptyMap Key Value n).buckets_.getD i [] = [] :=
    getD_replicate_nil n i
  rw [h]
  exact ⟨List.nodup_nil, fun p hp => absurd hp (List.not_mem_nil p)⟩

theorem WF_clear : WF hash (clear m) := by
  intro i hi
  have h : (clear m).buckets_.getD i [] = [] :=
    getD_map_const_nil m.buckets_ i
  rw [h]
  exact ⟨List.nodup_nil, fun p hp => absurd hp (List.not_mem_nil p)⟩

theorem WF_put (hwf : WF hash m) : WF hash (put hash m key value) := by
  intro i hi
  rw [length_put] at hi
  by_cases hidx : i = getBucketIndex hash m key
  · subst hidx
    have hset : (put hash m key value).buckets_.getD
        (getBucketIndex hash m key) []
        = upsertBucket key value (bucketOf hash m key) := by
      show (m.buckets_.set (getBucketIndex hash m key)
        (upsertBucket key value (bucketOf hash m key))).getD
        (getBucketIndex hash m key) [] = _
      exact getD_set_self _ _ _ _ hi
    rw [hset, length_put]
    refine ⟨nodup_keys_upsertBucket (hwf _ hi).1, ?_⟩
    intro p hp
    rcases fst_mem_upsertBucket hp with hk | hmem
    · rw [hk]
      rfl
    · exact (hwf _ hi).2 p hmem
  · have hset : (put hash m key value).buckets_.getD i []
        = m.buckets_.getD i [] := by
      show (m.buckets_.set (getBucketIndex hash m key)
        (upsertBucket key value (bucketOf hash m key))).getD i [] = _
      exact getD_set_ne _ _ _ (fun hc => hidx hc.symm)
    rw [hset, length_put]
    exact hwf i hi

theorem WF_remove (hwf : WF hash m) : WF hash (remove hash m key).2 := by
  intro i hi
  rw [length_remove] at hi
  by_cases hidx : i = getBucketIndex hash m key
  · subst hidx
    have hset : (remove hash m key).2.buckets_.getD
        (getBucketIndex hash m key) []
        = (eraseBucket key (bucketOf hash m key)).2 := by
      show (m.buckets_.set (getBucketIndex hash m key)
        (eraseBucket key (bucketOf hash m key)).2).getD
        (getBucketIndex hash m key) [] = _
      exact getD_set_self _ _ _ _ hi
    rw [hset, length_remove]
    refine ⟨List.Nodup.sublist (eraseBucket_sublist.map Prod.fst)
      (hwf _ hi).1, ?_⟩
    intro p hp
    exact (hwf _ hi).2 p (eraseBucket_sublist.subset hp)
  · have hset : (remove hash m key).2.buckets_.getD i []
        = m.buckets_.getD i [] := by
      show (m.buckets_.set (getBucketIndex hash m key)
        (eraseBucket key (bucketOf hash m key)).2).getD i [] = _
      exact getD_set_ne _ _ _ (fun hc => hidx hc.symm)
    rw [hset, length_remove]
    exact hwf i hi

theorem reachable_WF {m : ConcurrentHashMap Key Value}
    (hr : Reachable hash m) : WF hash m := by
  induction hr with
  | emptyMap n => exact WF_emptyMap n
  | put k v _ ih => exact WF_put ih
  | remove k _ ih => exact WF_remove ih
  | clear _ ih => exact WF_clear

theorem sum_le_one_of_single {β : Type} {f : List β → Nat}
    (l : List (List β)) (j : Nat)
    (hzero : ∀ i, i < l.length → i ≠ j → f (l.getD i []) = 0)
    (hj : f (l.getD j []) ≤ 1) :
    (l.map f).sum ≤ 1 := by
  induction l generalizing j with
  | nil => simp
  | cons a t ih =>
    cases j with
    | zero =>
      have hrest : (t.map f).sum = 0 := by
        refine List.sum_eq_zero ?_
        intro x hx
        rcases List.mem_map.mp hx with ⟨b, hb, hfb⟩
        rcases List.mem_iff_get.mp hb with ⟨n, hn⟩
        have hd : t.getD n [] = b := by
          show (t.get? n).getD [] = b
          rw [List.get?_eq_get n.isLt, hn]
          rfl
        have := hzero (n + 1) (by simpa using n.isLt) (Nat.succ_ne_zero n)
        show x = 0
        rw [← hfb, ← hd]
        exact this
      have ha : f a ≤ 1 := hj
      simp only [List.map, List.sum_cons, hrest]
      omega
    | succ k =>
      have ha : f a = 0 := hzero 0 (by simp) (Nat.succ_ne_zero k).symm
      simp only [List.map, List.sum_cons, ha]
      have := ih k
        (fun i hi hne => hzero (i + 1) (by simpa using hi)
          (fun hc => hne (Nat.succ_injective hc)))
        hj
      omega

theorem countKey_le_one {hash : Key → Nat} {m : ConcurrentHashMap Key Value}
    (hwf : WF hash m) (key : Key) : countKey m key ≤ 1 := by
  rw [countKey]
  refine sum_le_one_of_single m.buckets_ (getBucketIndex hash m key)
    ?_ ?_
  · intro i hi hne
    have hfil : (m.buckets_.getD i []).filter (fun p => p.1 = key) = [] := by
      refine List.filter_eq_nil_iff.mpr ?_
      intro p hp
      simp only [decide_eq_true_eq]
      intro hc
      have hhash := (hwf i hi).2 p hp
      rw [hc] at hhash
      exact hne hhash.symm
    rw [hfil]
    rfl
  · by_cases hlt : getBucketIndex hash m key < m.buckets_.length
    · exact filter_length_le_one (hwf _ hlt).1
    · rw [getD_of_ge _ _ (Nat.le_of_not_lt hlt)]
      simp

theorem size_emptyMap (n : Nat) : size (emptyMap Key Value n) = 0 := by
  rw [size_eq_sum]
  refine List.sum_eq_zero ?_
  intro x hx
  rcases List.mem_map.mp hx with ⟨b, hb, hlen⟩
  have : b = [] := List.eq_of_mem_replicate hb
  rw [← hlen, this]
  rfl

theorem containsKey_emptyMap {hash : Key → Nat} (n : Nat) (key : Key) :
    containsKey hash (emptyMap Key Value n) key = false := by
  show (get hash (emptyMap Key Value n) key).isSome = false
  rw [get_emptyMap]
  rfl

theorem size_insertAll {hash : Key → Nat} {m : ConcurrentHashMap Key Value}
    (ps : List (Key × Value)) (h0 : 0 < m.buckets_.length)
    (hnd : (ps.map Prod.fst).Nodup)
    (habs : ∀ p ∈ ps, containsKey hash m p.1 = false) :
    size (insertAll hash m ps) = size m + ps.length := by
  induction ps generalizing m with
  | nil => simp [insertAll]
  | cons q qs ih =>
    simp only [List.map, List.nodup_cons] at hnd
    have h0' : 0 < (put hash m q.1 q.2).buckets_.length := by
      rw [length_put]
      exact h0
    have hq : containsKey hash m q.1 = false := habs q (List.mem_cons_self q qs)
    have habs' : ∀ p ∈ qs, containsKey hash (put hash m q.1 q.2) p.1 = false := by
      intro p hp
      have hne : p.1 ≠ q.1 := by
        intro hc
        exact hnd.1 (hc ▸ List.mem_map_of_mem Prod.fst hp)
      show (get hash (put hash m q.1 q.2) p.1).isSome = false
      rw [get_put_ne hne]
      exact habs p (List.mem_cons_of_mem q hp)
    have hstep : insertAll hash m (q :: qs)
        = insertAll hash (put hash m q.1 q.2) qs := rfl
    rw [hstep, ih h0' hnd.2 habs', size_put_absent h0 hq]
    simp only [List.length_cons]
    omega

theorem get_runOps_none {hash : Key → Nat} {m : ConcurrentHashMap Key Value}
    {key : Key} (ops : List (Op Key Value)) (h : get hash m key = none)
    (hops : ∀ op ∈ ops, putsKey key op = false) :
    get hash (runOps hash m ops) key = none := by
  induction ops generalizing m with
  | nil => exact h
  | cons op rest ih =>
    have hstep : runOps hash m (op :: rest)
        = runOps hash (applyOp hash m op) rest := rfl
    rw [hstep]
    refine ih ?_ (fun o ho => hops o (List.mem_cons_of_mem op ho))
    have hop := hops op (List.mem_cons_self op rest)
    cases op with
    | putOp k v =>
      have hne : key ≠ k := by
        intro hc
        simp [putsKey, hc] at hop
      show get hash (put hash m k v) key = none
      rw [get_put_ne hne]
      exact h
    | removeOp k => exact get_remove_preserve_none h
    | clearOp => exact get_clear

end InvariantLemmas

/-- Identity hash on naturals, standing in for `std::hash` in concrete
evaluations. -/
def hashNat : Nat → Nat := fun n => n

/-- A small concrete state: key 1 mapped to 10 in a 4-bucket table. -/
def mOne : ConcurrentHashMap Nat Nat :=
  put hashNat (emptyMap Nat Nat 4) 1 10

/-- A concrete operation script that never puts key 3. -/
def ops3 : List (Op Nat Nat) :=
  [Op.putOp 1 10, Op.removeOp 2, Op.clearOp, Op.putOp 2 20]

/-- Claim C1: `put(k, v)` performs upsert — overwrite in place on a key
match, otherwise append `(k, v)` to the target bucket's chain — so after
sequential `put(k, v1)`, `put(k, v2)`, `get(k)` is `v2` and the key is
counted exactly once.  The theorem evaluates the intent-modelled `put`
(the source's append branch writes to the nonexistent member
`bucket.item` and so does not compile as written; the claim's behavior
is the spec-stated intent): the last two conjuncts additionally show the
fresh entries `(1, 10)` and `(5, 30)` got appended, in order, to bucket
`1 = hash(5) mod 4` of the chain. -/
theorem claim1_put_upsert_modelled :
    get hashNat (put hashNat (put hashNat (emptyMap Nat Nat 4) 1 10) 1 20) 1
      = some 20 ∧
    countKey (put hashNat (put hashNat (emptyMap Nat Nat 4) 1 10) 1 20) 1
      = 1 ∧
    size (put hashNat (put hashNat (emptyMap Nat Nat 4) 1 10) 1 20) = 1 ∧
    (put hashNat (put hashNat (emptyMap Nat Nat 4) 1 10) 5 30).buckets_.getD
      1 [] = [(1, 10), (5, 30)] := by
  decide

/-- Claim C2: `remove(k)` returns true iff an entry with key `k` was
present (and removes it); on an absent key it returns false and leaves
the whole state — hence `size()` — unchanged; on a present key it
returns true and afterwards `get(k)` is empty and `contains(k)` is
false.  The present-key conclusions assume the structural invariant
`WF`, which holds of every reachable state. -/
theorem claim2_remove_spec (hash : Key → Nat)
    (m : ConcurrentHashMap Key Value) (key : Key) :
    ((remove hash m key).1 = containsKey hash m key) ∧
    (containsKey hash m key = false → (remove hash m key).2 = m) ∧
    (WF hash m → containsKey hash m key = true →
      (remove hash m key).1 = true ∧
      get hash (remove hash m key).2 key = none ∧
      containsKey hash (remove hash m key).2 key = false) := by
  refine ⟨remove_fst_eq, remove_of_absent, ?_⟩
  intro hwf hc
  have hget := get_remove_self hwf hc
  refine ⟨by rw [remove_fst_eq]; exact hc, hget, ?_⟩
  show (get hash (remove hash m key).2 key).isSome = false
  rw [hget]
  rfl

/-- Witness for claim C2 at the concrete state `mOne`: removing the
present key 1 succeeds and erases it; removing the absent key 2 leaves
the state unchanged. -/
theorem claim2_remove_spec_witness :
    (CHM.remove hashNat mOne 1).1 = true ∧
    get hashNat (CHM.remove hashNat mOne 1).2 1 = none ∧
    (CHM.remove hashNat mOne 2).2 = mOne :=
  ⟨((claim2_remove_spec hashNat mOne 1).2.2 (by decide) (by decide)).1,
   ((claim2_remove_spec hashNat mOne 1).2.2 (by decide) (by decide)).2.1,
   (claim2_remove_spec hashNat mOne 2).2.1 (by decide)⟩

/-- Claim C3: starting from the empty map, every sequence of `put`,
`remove` and `clear` operations preserves the invariant that at most one
entry per distinct key exists anywhere in the structure (in any chain of
any bucket). -/
theorem claim3_at_most_one_entry_per_key {hash : Key → Nat}
    {m : ConcurrentHashMap Key Value} (hr : Reachable hash m) (key : Key) :
    countKey m key ≤ 1 :=
  countKey_le_one (reachable_WF hr) key

/-- Witness for claim C3 on the reachable state obtained by two puts of
key 1. -/
theorem claim3_at_most_one_entry_per_key_witness :
    countKey (put hashNat mOne 1 20) 1 ≤ 1 :=
  claim3_at_most_one_entry_per_key
    (Reachable.put 1 20 (Reachable.put 1 10 (Reachable.emptyMap 4))) 1

/-- Claim C4: `size()` is the sum of the chain lengths of all buckets,
and after sequentially inserting distinct keys into a fresh map it
equals the number of keys inserted. -/
theorem claim4_size_spec (hash : Key → Nat) (N : Nat)
    (ps : List (Key × Value)) (h0 : 0 < N)
    (hnd : (ps.map Prod.fst).Nodup) :
    size (insertAll hash (emptyMap Key Value N) ps) = ps.length ∧
    ∀ m' : ConcurrentHashMap Key Value,
      size m' = (m'.buckets_.map List.length).sum := by
  constructor
  · have h0' : 0 < (emptyMap Key Value N).buckets_.length := by
      rw [length_emptyMap]
      exact h0
    have habs : ∀ p ∈ ps,
        containsKey hash (emptyMap Key Value N) p.1 = false :=
      fun p _ => containsKey_emptyMap N p.1
    rw [size_insertAll ps h0' hnd habs, size_emptyMap]
    omega
  · exact fun _ => size_eq_sum

/-- Witness for claim C4: three distinct keys inserted into a fresh
4-bucket map give size 3. -/
theorem claim4_size_spec_witness :
    size (insertAll hashNat (emptyMap Nat Nat 4)
      [(1, 10), (2, 20), (5, 30)]) = 3 :=
  (claim4_size_spec hashNat 4 [(1, 10), (2, 20), (5, 30)]
    (by decide) (by decide)).1

/-- Claim C5: after `clear()` the map reports size 0 and `get` is empty
on every key, while the bucket structure itself (its `NumBuckets`-length
array) survives, so the map stays usable. -/
theorem claim5_clear_spec (hash : Key → Nat)
    (m : ConcurrentHashMap Key Value) (key : Key) :
    size (clear m) = 0 ∧ get hash (clear m) key = none ∧
    (clear m).buckets_.length = m.buckets_.length :=
  ⟨size_clear, get_clear, length_clear⟩

/-- Claim C6: `contains(key)` returns exactly `get(key).has_value()`;
the source defines it literally that way. -/
theorem claim6_contains_eq_get_isSome (hash : Key → Nat)
    (m : ConcurrentHashMap Key Value) (key : Key) :
    containsKey hash m key = (get hash m key).isSome :=
  rfl

/-- Claim C7: a key that is never inserted by any operation of a script
run against a freshly constructed map — of any bucket count — is never
found: `get` returns empty and `contains` returns false. -/
theorem claim7_never_inserted (hash : Key → Nat) (n : Nat) (key : Key)
    (ops : List (Op Key Value))
    (hops : ∀ op ∈ ops, putsKey key op = false) :
    get hash (runOps hash (emptyMap Key Value n) ops) key = none ∧
    containsKey hash (runOps hash (emptyMap Key Value n) ops) key
      = false := by
  have hg : get hash (runOps hash (emptyMap Key Value n) ops) key = none :=
    get_runOps_none ops (get_emptyMap n) hops
  refine ⟨hg, ?_⟩
  show (get hash (runOps hash (emptyMap Key Value n) ops) key).isSome
    = false
  rw [hg]
  rfl

/-- Witness for claim C7 on a concrete script that puts keys 1 and 2,
removes and clears, but never puts key 3. -/
theorem claim7_never_inserted_witness :
    get hashNat (runOps hashNat (emptyMap Nat Nat 4) ops3) 3 = none ∧
    containsKey hashNat (runOps hashNat (emptyMap Nat Nat 4) ops3) 3
      = false :=
  claim7_never_inserted hashNat 4 3 ops3 (by decide)

/-- Claim C8: the bucket index of a key is deterministically
`hash(key) mod N`, and the single-key mutators `put` and `remove` leave
every bucket other than that one unchanged. -/
theorem claim8_single_bucket (hash : Key → Nat)
    (m : ConcurrentHashMap Key Value) (key : Key) (value : Value) :
    getBucketIndex hash m key = hash key % m.buckets_.length ∧
    ∀ j, j ≠ getBucketIndex hash m key →
      (put hash m key value).buckets_.getD j [] = m.buckets_.getD j [] ∧
      (remove hash m key).2.buckets_.getD j []
        = m.buckets_.getD j [] := by
  refine ⟨rfl, fun j hj => ⟨?_, ?_⟩⟩
  · show (m.buckets_.set (getBucketIndex hash m key)
      (upsertBucket key value (bucketOf hash m key))).getD j [] = _
    exact getD_set_ne _ _ _ (fun hc => hj hc.symm)
  · show (m.buckets_.set (getBucketIndex hash m key)
      (eraseBucket key (bucketOf hash m key)).2).getD j [] = _
    exact getD_set_ne _ _ _ (fun hc => hj hc.symm)

/-- Witness for claim C8: mutating key 2 (bucket 2 of 4) leaves bucket 0
untouched. -/
theorem claim8_single_bucket_witness :
    (put hashNat mOne 2 20).buckets_.getD 0 [] = mOne.buckets_.getD 0 [] ∧
    (CHM.remove hashNat mOne 2).2.buckets_.getD 0 []
      = mOne.buckets_.getD 0 [] :=
  (claim8_single_bucket hashNat mOne 2 20).2 0 (by decide)

/-- Claim C9: the query operations `get`, `contains` and `size` are
read-only — their state-passing embeddings return the input state
unchanged while producing the same results as the plain query
functions. -/
theorem claim9_queries_readonly (hash : Key → Nat)
    (m : ConcurrentHashMap Key Value) (key : Key) :
    (getS hash m key).2 = m ∧ (containsS hash m key).2 = m ∧
    (sizeS m).2 = m ∧
    (getS hash m key).1 = get hash m key ∧
    (containsS hash m key).1 = containsKey hash m key ∧
    (sizeS m).1 = size m :=
  ⟨rfl, rfl, rfl, rfl, rfl, rfl⟩

end CHM

